import Mathlib

/-!
Verification of the `saturating_buffer` repository: a caching reader that
wraps a random-access byte source and memoizes every byte range it fetches.

The development shallowly embeds the two source files:
  * `src/buffer.rs`  — the `Buffer` range-buffer abstraction;
  * `src/saturating_reader.rs` — the `SaturatingReader` caching reader.

Modelling conventions:
  * `u64` offsets become `Nat`; the one place where `u64` overflow matters
    (`u64::checked_add_signed` in `seek`) is modelled with an explicit
    `2 ^ 64` bound.  Byte values become `Nat`.
  * Rust panics (failed `assert!`) and I/O errors both become `none` of an
    `Option` result; which of the two a given `none` is, is noted at each
    definition.
  * `Read::read` on `SaturatingReader` is recursive in the source; it is
    embedded with an explicit fuel parameter, `none` on fuel exhaustion.
  * The underlying generic `R : Read + Seek` source is modelled as
    `std::io::Cursor<Vec<u8>>`, the instantiation used by the repository's
    own tests: a byte list plus a position, where a read returns the bytes
    between the position and the end of the list (at most the requested
    count) and seeking past the end is allowed.
-/

/-- Embeds `struct Buffer` from `src/buffer.rs`.  The `end` field of the
source is called `stop` here because `end` is a Lean keyword.  `data` holds
the buffered bytes; the source maintains `data.len() = end - start`. -/
structure Buffer where
  start : Nat
  stop : Nat
  data : List Nat
  deriving Repr, DecidableEq

/-- Well-formedness that every `Buffer` built by the source code enjoys:
the range is ordered and the byte payload has exactly the range's length. -/
def Buffer.WF (b : Buffer) : Prop :=
  b.start ≤ b.stop ∧ b.data.length = b.stop - b.start

instance (b : Buffer) : Decidable b.WF := by
  unfold Buffer.WF; infer_instance

/-- `Buffer::new(start, end)`: zero-filled buffer over `[start, end)`.
The source `assert!(start < end)` (a panic) is the `none` branch. -/
def Buffer.new (start stop : Nat) : Option Buffer :=
  if start < stop then
    some { start := start, stop := stop, data := List.replicate (stop - start) 0 }
  else
    none

/-- `Buffer::from_slice(start, buf)`: `end = start + buf.len()`. -/
def Buffer.from_slice (start : Nat) (buf : List Nat) : Buffer :=
  { start := start, stop := start + buf.length, data := buf }

/-- `Buffer::overlaps`: intersection of `[self.start, self.end)` and
`[other.start, other.end)`, counting ranges that touch end-to-end. -/
def Buffer.overlaps (b other : Buffer) : Bool :=
  decide (b.start ≤ other.stop) && decide (other.start ≤ b.stop)

/-- `dst[i..i + src.len()].copy_from_slice(&src)` on byte vectors.  Every
use below has `i + src.length ≤ dst.length`, which is what the Rust slice
indexing requires. -/
def writeSlice (dst : List Nat) (i : Nat) (src : List Nat) : List Nat :=
  dst.take i ++ src ++ dst.drop (i + src.length)

/-- `Buffer::merge(self, other)`: consumes both buffers and merges them.
The source asserts `self.overlaps(&other)` and then builds
`Buffer::new(min starts, max ends)` (which itself asserts `start < end`);
either failed assertion is a panic, modelled as `none`.  The payload is the
zero-filled span overwritten first with `self`'s bytes at `self`'s
sub-range, then with `other`'s bytes at `other`'s sub-range. -/
def Buffer.merge (b other : Buffer) : Option Buffer :=
  if b.overlaps other then
    let start := min b.start other.start
    let stop := max b.stop other.stop
    match Buffer.new start stop with
    | none => none
    | some fresh =>
        some { fresh with
                 data := writeSlice
                   (writeSlice fresh.data (b.start - start) b.data)
                   (other.start - start) other.data }
  else
    none

/-- `Buffer::contains_range(offset, length)`:
`self.start <= offset && offset + length <= self.end`. -/
def Buffer.contains_range (b : Buffer) (offset length : Nat) : Bool :=
  decide (b.start ≤ offset) && decide (offset + length ≤ b.stop)

/-- `Buffer::get_range(offset, length)`: `None` unless `contains_range`;
otherwise the slice `&self.data[offset - start .. offset - start + length]`. -/
def Buffer.get_range (b : Buffer) (offset length : Nat) : Option (List Nat) :=
  if b.contains_range offset length then
    some ((b.data.drop (offset - b.start)).take length)
  else
    none

/-- `Buffer::range()` accessor. -/
def Buffer.range (b : Buffer) : Nat × Nat :=
  (b.start, b.stop)

/-- The byte the buffer holds at absolute offset `p`, if `p` lies in
`[start, stop)`.  Derived observer used to state byte-precedence facts. -/
def Buffer.byteAt (b : Buffer) (p : Nat) : Option Nat :=
  if b.start ≤ p ∧ p < b.stop then b.data[p - b.start]? else none

/-! ## The underlying source, modelled as `std::io::Cursor<Vec<u8>>` -/

/-- The wrapped byte source: the repository's tests instantiate
`R = Cursor<Vec<u8>>`, a byte vector plus a position. -/
structure Src where
  data : List Nat
  pos : Nat
  deriving Repr, DecidableEq

/-- `Seek::stream_position` on the source. -/
def Src.stream_position (src : Src) : Nat :=
  src.pos

/-- `Seek::seek_relative(d)` on a cursor: moves the position by `d`;
seeking to a negative position is an I/O error (`none`). -/
def Src.seek_relative (src : Src) (d : Int) : Option Src :=
  if (src.pos : Int) + d < 0 then none
  else some { src with pos := ((src.pos : Int) + d).toNat }

/-- `Read::read` on a cursor with a destination buffer of length `n`:
returns the bytes between `pos` and the end of the data (at most `n`) and
advances the position past them.  Never errors. -/
def Src.read (src : Src) (n : Nat) : List Nat × Src :=
  let bytes := (src.data.drop src.pos).take n
  (bytes, { src with pos := src.pos + bytes.length })

/-- `Seek::seek(SeekFrom::End(d))` on a cursor: position becomes
`data.len() + d`; a negative result is an I/O error (`none`). -/
def Src.seek_end (src : Src) (d : Int) : Option Src :=
  if (src.data.length : Int) + d < 0 then none
  else some { src with pos := ((src.data.length : Int) + d).toNat }

/-! ## The caching reader, from `src/saturating_reader.rs` -/

/-- Embeds `struct SaturatingReader<R>` with `R` the cursor model. -/
structure SaturatingReader where
  inner : Src
  buffers : List Buffer
  cursor_pos : Nat
  bufread_size : Nat
  deriving Repr, DecidableEq

/-- `SaturatingReader::with_capacity(capacity, inner)`. -/
def SaturatingReader.with_capacity (capacity : Nat) (inner : Src) : SaturatingReader :=
  { inner := inner, buffers := [], cursor_pos := 0, bufread_size := capacity }

/-- `SaturatingReader::new(inner)`: default chunk size `8 * 1024`. -/
def SaturatingReader.mk_new (inner : Src) : SaturatingReader :=
  SaturatingReader.with_capacity (8 * 1024) inner

/-- `SaturatingReader::add_buffer(offset, buf)`, written as a pure function
of the buffer collection.  Partitions the collection into entries that
overlap the new buffer and entries that do not, folds the overlapping ones
into the new buffer with `merge` (the new buffer is the initial
accumulator), and appends the folded result to the non-overlapping entries.
`none` means a `merge` assertion panicked. -/
def SaturatingReader.add_buffer (buffers : List Buffer) (offset : Nat)
    (buf : List Nat) : Option (List Buffer) :=
  let new_buffer := Buffer.from_slice offset buf
  let parts := buffers.partition (fun x => x.overlaps new_buffer)
  match parts.1.foldlM (fun acc x => acc.merge x) new_buffer with
  | none => none
  | some merged => some (parts.2 ++ [merged])

/-- `SaturatingReader::into_inner`. -/
def SaturatingReader.into_inner (s : SaturatingReader) : Src :=
  s.inner

/-- `SaturatingReader::read_inner(at_least)`: reconcile the source's
position to `cursor_pos` with a relative seek of
`cursor_pos as i64 - inner_pos as i64` (the casts are exact below `2^63`,
the domain considered here), read up to `max at_least bufread_size` bytes,
store the prefix actually read via `add_buffer` at `cursor_pos`, and return
how many bytes were read.  `none` is a seek error or an `add_buffer`
panic. -/
def SaturatingReader.read_inner (s : SaturatingReader) (at_least : Nat) :
    Option (Nat × SaturatingReader) :=
  let inner_pos := s.inner.stream_position
  match s.inner.seek_relative ((s.cursor_pos : Int) - (inner_pos : Int)) with
  | none => none
  | some inner1 =>
      let res := inner1.read (max at_least s.bufread_size)
      match SaturatingReader.add_buffer s.buffers s.cursor_pos res.1 with
      | none => none
      | some bufs =>
          some (res.1.length, { s with inner := res.2, buffers := bufs })

/-- The cache lookup inside `Read::read`:
`self.buffers.iter().find_map(|b| b.get_range(self.cursor_pos, buf.len()))`. -/
def SaturatingReader.cacheLookup (buffers : List Buffer) (offset len : Nat) :
    Option (List Nat) :=
  buffers.findSome? (fun b => b.get_range offset len)

/-- `<SaturatingReader as Read>::read` with a destination buffer of length
`len`.  The source re-invokes `self.read(buf)` after a miss; that recursion
is embedded with explicit fuel, `none` on fuel exhaustion (as well as on a
propagated `read_inner` failure).  On success the result is the bytes
copied into the destination, the returned count, and the new state. -/
def SaturatingReader.read (fuel : Nat) (s : SaturatingReader) (len : Nat) :
    Option (List Nat × Nat × SaturatingReader) :=
  match fuel with
  | 0 => none
  | fuel + 1 =>
      match SaturatingReader.cacheLookup s.buffers s.cursor_pos len with
      | some bytes =>
          some (bytes, len, { s with cursor_pos := s.cursor_pos + len })
      | none =>
          match SaturatingReader.read_inner s len with
          | none => none
          | some res => SaturatingReader.read fuel res.2 len

/-- The three `std::io::SeekFrom` variants (`End` is called `fromEnd`). -/
inductive SeekFrom where
  | start (p : Nat)
  | current (d : Int)
  | fromEnd (d : Int)
  deriving Repr, DecidableEq

/-- `u64::checked_add_signed`: `some` exactly when the mathematical sum is
representable as an unsigned 64-bit integer. -/
def checked_add_signed (p : Nat) (d : Int) : Option Nat :=
  if 0 ≤ (p : Int) + d ∧ (p : Int) + d < 2 ^ 64 then some ((p : Int) + d).toNat
  else none

/-- `<SaturatingReader as Seek>::seek`.  Returns the `Ok` position (or
`none` for the overflow error / a source seek error) together with the
reader state afterwards; on an error the source leaves the reader's
`cursor_pos` untouched. -/
def SaturatingReader.seek (s : SaturatingReader) (pos : SeekFrom) :
    Option Nat × SaturatingReader :=
  match pos with
  | SeekFrom.start p => (some p, { s with cursor_pos := p })
  | SeekFrom.current d =>
      match checked_add_signed s.cursor_pos d with
      | some c => (some c, { s with cursor_pos := c })
      | none => (none, s)
  | SeekFrom.fromEnd d =>
      match s.inner.seek_end d with
      | none => (none, s)
      | some inner1 =>
          (some inner1.stream_position,
           { s with inner := inner1, cursor_pos := inner1.stream_position })

/-- The Range Cache separation relation: two entries neither overlap nor
touch (`a.end < b.start` or `b.end < a.start`, strictly). -/
def Buffer.Sep (a b : Buffer) : Prop :=
  a.stop < b.start ∨ b.stop < a.start

instance (a b : Buffer) : Decidable (a.Sep b) := by
  unfold Buffer.Sep; infer_instance

/-- The Range Cache invariant: the entries are pairwise separated. -/
def CacheInv (buffers : List Buffer) : Prop :=
  buffers.Pairwise Buffer.Sep

instance (buffers : List Buffer) : Decidable (CacheInv buffers) := by
  unfold CacheInv
  infer_instance

/-- The cache entries that `add_buffer` pulls out and merges. -/
def hitsOf (buffers : List Buffer) (nb : Buffer) : List Buffer :=
  buffers.filter (fun x => x.overlaps nb)

/-- The cache entries that `add_buffer` leaves untouched. -/
def missesOf (buffers : List Buffer) (nb : Buffer) : List Buffer :=
  buffers.filter (fun x => !(x.overlaps nb))

/-- An end-of-source reader state: the four-byte source is exhausted, the
whole of it is cached as `[0,4)`, and the cursor sits at `4`.  A four-byte
read from here misses the cache, and every fetch returns zero bytes. -/
def loopState : SaturatingReader :=
  { inner := { data := [10, 11, 12, 13], pos := 4 }
    buffers := [{ start := 0, stop := 4, data := [10, 11, 12, 13] }]
    cursor_pos := 4
    bufread_size := 4 }


/-! ## Helper lemmas about `writeSlice` and `merge` -/

theorem writeSlice_length (dst src : List Nat) (i : Nat)
    (h : i + src.length ≤ dst.length) :
    (writeSlice dst i src).length = dst.length := by
  unfold writeSlice
  simp only [List.length_append, List.length_take, List.length_drop]
  omega

theorem writeSlice_getElem? (dst src : List Nat) (i j : Nat)
    (h : i + src.length ≤ dst.length) :
    (writeSlice dst i src)[j]? =
      if i ≤ j ∧ j < i + src.length then src[j - i]? else dst[j]? := by
  have htake : (dst.take i).length = i := by
    rw [List.length_take]; omega
  unfold writeSlice
  rw [List.getElem?_append, List.getElem?_append, List.getElem?_take,
      List.getElem?_drop, List.length_append, htake]
  rcases Nat.lt_or_ge j i with h1 | h1
  · rw [if_pos (by omega), if_pos (by omega), if_pos h1, if_neg (by omega)]
  · rcases Nat.lt_or_ge j (i + src.length) with h2 | h2
    · rw [if_pos (by omega), if_neg (by omega), if_pos ⟨h1, h2⟩]
    · rw [if_neg (by omega), if_neg (by omega)]
      congr 1
      omega

/-- Closed form of `Buffer.merge`: the two assertions collapse into one
condition, and on success the result has the union range with `b`'s bytes
written first and `other`'s written second. -/
theorem Buffer.merge_char (b o : Buffer) :
    b.merge o =
      if b.overlaps o ∧ min b.start o.start < max b.stop o.stop then
        some { start := min b.start o.start, stop := max b.stop o.stop,
               data := writeSlice
                 (writeSlice (List.replicate (max b.stop o.stop - min b.start o.start) 0)
                   (b.start - min b.start o.start) b.data)
                 (o.start - min b.start o.start) o.data }
      else none := by
  unfold Buffer.merge Buffer.new
  by_cases h1 : b.overlaps o <;>
    by_cases h2 : min b.start o.start < max b.stop o.stop <;>
      simp [h1, h2]

theorem Buffer.merge_range {b o m : Buffer} (h : b.merge o = some m) :
    m.start = min b.start o.start ∧ m.stop = max b.stop o.stop := by
  rw [Buffer.merge_char] at h
  by_cases hc : b.overlaps o ∧ min b.start o.start < max b.stop o.stop
  · rw [if_pos hc] at h
    cases h
    exact ⟨rfl, rfl⟩
  · rw [if_neg hc] at h
    cases h

theorem Buffer.merge_WF {b o m : Buffer} (hb : b.WF) (ho : o.WF)
    (h : b.merge o = some m) : m.WF := by
  rw [Buffer.merge_char] at h
  by_cases hc : b.overlaps o ∧ min b.start o.start < max b.stop o.stop
  · rw [if_pos hc] at h
    obtain ⟨hb1, hb2⟩ := hb
    obtain ⟨ho1, ho2⟩ := ho
    obtain ⟨-, hlt⟩ := hc
    have hrep : (List.replicate (max b.stop o.stop - min b.start o.start) 0).length
        = max b.stop o.stop - min b.start o.start := List.length_replicate ..
    have hinner : (writeSlice (List.replicate (max b.stop o.stop - min b.start o.start) 0)
        (b.start - min b.start o.start) b.data).length
        = max b.stop o.stop - min b.start o.start := by
      rw [writeSlice_length, hrep]
      rw [hrep]
      omega
    have houter : (writeSlice (writeSlice
          (List.replicate (max b.stop o.stop - min b.start o.start) 0)
          (b.start - min b.start o.start) b.data)
        (o.start - min b.start o.start) o.data).length
        = max b.stop o.stop - min b.start o.start := by
      rw [writeSlice_length, hinner]
      rw [hinner]
      omega
    cases h
    refine ⟨?_, ?_⟩
    · show min b.start o.start ≤ max b.stop o.stop
      omega
    · exact houter
  · rw [if_neg hc] at h
    cases h

theorem Buffer.merge_byteAt_second {b o m : Buffer} (hb : b.WF) (ho : o.WF)
    (h : b.merge o = some m) (p : Nat) (h1 : o.start ≤ p) (h2 : p < o.stop) :
    m.byteAt p = o.byteAt p := by
  rw [Buffer.merge_char] at h
  by_cases hc : b.overlaps o ∧ min b.start o.start < max b.stop o.stop
  case neg => rw [if_neg hc] at h; cases h
  rw [if_pos hc] at h
  obtain ⟨hb1, hb2⟩ := hb
  obtain ⟨ho1, ho2⟩ := ho
  have hrep : (List.replicate (max b.stop o.stop - min b.start o.start) 0).length
      = max b.stop o.stop - min b.start o.start := List.length_replicate ..
  have hinner : (writeSlice (List.replicate (max b.stop o.stop - min b.start o.start) 0)
      (b.start - min b.start o.start) b.data).length
      = max b.stop o.stop - min b.start o.start := by
    rw [writeSlice_length, hrep]
    rw [hrep]
    omega
  cases h
  simp only [Buffer.byteAt]
  rw [if_pos (show min b.start o.start ≤ p ∧ p < max b.stop o.stop by omega),
      if_pos ⟨h1, h2⟩]
  rw [writeSlice_getElem?]
  · rw [if_pos (show o.start - min b.start o.start ≤ p - min b.start o.start ∧
        p - min b.start o.start < o.start - min b.start o.start + o.data.length by omega)]
    congr 1
    omega
  · rw [hinner]
    omega

theorem Buffer.merge_byteAt_first {b o m : Buffer} (hb : b.WF) (ho : o.WF)
    (h : b.merge o = some m) (p : Nat) (h1 : b.start ≤ p) (h2 : p < b.stop)
    (h3 : ¬(o.start ≤ p ∧ p < o.stop)) :
    m.byteAt p = b.byteAt p := by
  rw [Buffer.merge_char] at h
  by_cases hc : b.overlaps o ∧ min b.start o.start < max b.stop o.stop
  case neg => rw [if_neg hc] at h; cases h
  rw [if_pos hc] at h
  obtain ⟨hb1, hb2⟩ := hb
  obtain ⟨ho1, ho2⟩ := ho
  have hrep : (List.replicate (max b.stop o.stop - min b.start o.start) 0).length
      = max b.stop o.stop - min b.start o.start := List.length_replicate ..
  have hinner : (writeSlice (List.replicate (max b.stop o.stop - min b.start o.start) 0)
      (b.start - min b.start o.start) b.data).length
      = max b.stop o.stop - min b.start o.start := by
    rw [writeSlice_length, hrep]
    rw [hrep]
    omega
  cases h
  simp only [Buffer.byteAt]
  rw [if_pos (show min b.start o.start ≤ p ∧ p < max b.stop o.stop by omega),
      if_pos ⟨h1, h2⟩]
  rw [writeSlice_getElem?]
  · rw [if_neg (show ¬(o.start - min b.start o.start ≤ p - min b.start o.start ∧
        p - min b.start o.start < o.start - min b.start o.start + o.data.length) by omega)]
    rw [writeSlice_getElem?]
    · rw [if_pos (show b.start - min b.start o.start ≤ p - min b.start o.start ∧
          p - min b.start o.start < b.start - min b.start o.start + b.data.length by omega)]
      congr 1
      omega
    · rw [hrep]
      omega
  · rw [hinner]
    omega

theorem Buffer.overlaps_iff {b o : Buffer} :
    b.overlaps o = true ↔ b.start ≤ o.stop ∧ o.start ≤ b.stop := by
  unfold Buffer.overlaps
  simp

/-! ## Lemmas about the `add_buffer` fold -/

theorem foldMerge_success {nb : Buffer} (hne : nb.start < nb.stop) :
    ∀ (l : List Buffer) (acc : Buffer), (∀ x ∈ l, x.overlaps nb = true) →
    acc.start ≤ nb.start → nb.stop ≤ acc.stop →
    ∃ m, l.foldlM (fun a x => a.merge x) acc = some m ∧
      m.start ≤ nb.start ∧ nb.stop ≤ m.stop := by
  intro l
  induction l with
  | nil =>
      intro acc _ ha1 ha2
      exact ⟨acc, rfl, ha1, ha2⟩
  | cons x rest ih =>
      intro acc hov ha1 ha2
      have hx := Buffer.overlaps_iff.mp (hov x (List.mem_cons_self _ _))
      have hovax : acc.overlaps x = true := by
        rw [Buffer.overlaps_iff]
        omega
      have hlt : min acc.start x.start < max acc.stop x.stop := by omega
      obtain ⟨m1, hm1⟩ : ∃ m1, acc.merge x = some m1 := by
        rw [Buffer.merge_char, if_pos ⟨hovax, hlt⟩]
        exact ⟨_, rfl⟩
      obtain ⟨hr1, hr2⟩ := Buffer.merge_range hm1
      obtain ⟨m, hm, hs1, hs2⟩ := ih m1
        (fun y hy => hov y (List.mem_cons_of_mem _ hy)) (by omega) (by omega)
      refine ⟨m, ?_, hs1, hs2⟩
      rw [List.foldlM_cons, hm1]
      exact hm

theorem foldMerge_WF : ∀ (l : List Buffer) (acc m : Buffer),
    (∀ x ∈ l, x.WF) → acc.WF →
    l.foldlM (fun a x => a.merge x) acc = some m → m.WF := by
  intro l
  induction l with
  | nil =>
      intro acc m _ hacc h
      rw [List.foldlM_nil] at h
      cases h
      exact hacc
  | cons x rest ih =>
      intro acc m hwf hacc h
      rw [List.foldlM_cons] at h
      cases hmx : acc.merge x with
      | none => rw [hmx] at h; simp at h
      | some m1 =>
          rw [hmx] at h
          exact ih m1 m (fun y hy => hwf y (List.mem_cons_of_mem _ hy))
            (Buffer.merge_WF hacc (hwf x (List.mem_cons_self _ _)) hmx) h

theorem foldMerge_range : ∀ (l : List Buffer) (acc m : Buffer),
    l.foldlM (fun a x => a.merge x) acc = some m →
    m.start = l.foldl (fun a x => min a x.start) acc.start ∧
    m.stop = l.foldl (fun a x => max a x.stop) acc.stop := by
  intro l
  induction l with
  | nil =>
      intro acc m h
      rw [List.foldlM_nil] at h
      cases h
      exact ⟨rfl, rfl⟩
  | cons x rest ih =>
      intro acc m h
      rw [List.foldlM_cons] at h
      cases hmx : acc.merge x with
      | none => rw [hmx] at h; simp at h
      | some m1 =>
          rw [hmx] at h
          obtain ⟨hr1, hr2⟩ := Buffer.merge_range hmx
          obtain ⟨hi1, hi2⟩ := ih m1 m h
          rw [List.foldl_cons, List.foldl_cons]
          rw [hi1, hi2, hr1, hr2]
          exact ⟨rfl, rfl⟩

theorem foldMerge_byteAt : ∀ (l : List Buffer) (acc m : Buffer) (p : Nat),
    (∀ x ∈ l, x.WF) → acc.WF →
    l.foldlM (fun a x => a.merge x) acc = some m →
    acc.start ≤ p → p < acc.stop →
    (∀ x ∈ l, ¬(x.start ≤ p ∧ p < x.stop)) →
    m.byteAt p = acc.byteAt p := by
  intro l
  induction l with
  | nil =>
      intro acc m p _ _ h _ _ _
      rw [List.foldlM_nil] at h
      cases h
      rfl
  | cons x rest ih =>
      intro acc m p hwf hacc h hp1 hp2 hnc
      rw [List.foldlM_cons] at h
      cases hmx : acc.merge x with
      | none => rw [hmx] at h; simp at h
      | some m1 =>
          rw [hmx] at h
          have hxwf := hwf x (List.mem_cons_self _ _)
          have hm1wf := Buffer.merge_WF hacc hxwf hmx
          obtain ⟨hr1, hr2⟩ := Buffer.merge_range hmx
          have hfst := Buffer.merge_byteAt_first hacc hxwf hmx p hp1 hp2
            (hnc x (List.mem_cons_self _ _))
          have := ih m1 m p (fun y hy => hwf y (List.mem_cons_of_mem _ hy)) hm1wf h
            (by omega) (by omega) (fun y hy => hnc y (List.mem_cons_of_mem _ hy))
          rw [this, hfst]

/-! ## A closed form for `add_buffer` and assorted helper lemmas -/

theorem add_buffer_char (buffers : List Buffer) (offset : Nat) (buf : List Nat) :
    SaturatingReader.add_buffer buffers offset buf =
      match (hitsOf buffers (Buffer.from_slice offset buf)).foldlM
          (fun acc x => acc.merge x) (Buffer.from_slice offset buf) with
      | none => none
      | some merged =>
          some (missesOf buffers (Buffer.from_slice offset buf) ++ [merged]) := by
  unfold SaturatingReader.add_buffer hitsOf missesOf
  simp only [List.partition_eq_filter_filter]
  rfl

theorem findSome?_eq_some_exists {α β : Type} {f : α → Option β} {l : List α} {b : β}
    (h : l.findSome? f = some b) : ∃ a ∈ l, f a = some b := by
  induction l with
  | nil => cases h
  | cons x rest ih =>
      rw [List.findSome?_cons] at h
      cases hx : f x with
      | none =>
          rw [hx] at h
          obtain ⟨a, ha, hfa⟩ := ih h
          exact ⟨a, List.mem_cons_of_mem _ ha, hfa⟩
      | some v =>
          rw [hx] at h
          cases h
          exact ⟨x, List.mem_cons_self _ _, hx⟩

theorem findSome?_isSome_of_exists {α β : Type} {f : α → Option β} {l : List α}
    (h : ∃ a ∈ l, (f a).isSome) : (l.findSome? f).isSome := by
  induction l with
  | nil => obtain ⟨a, ha, _⟩ := h; cases ha
  | cons x rest ih =>
      rw [List.findSome?_cons]
      cases hx : f x with
      | none =>
          obtain ⟨a, ha, hfa⟩ := h
          rcases List.mem_cons.mp ha with rfl | ha'
          · rw [hx] at hfa; cases hfa
          · exact ih ⟨a, ha', hfa⟩
      | some v => rfl

theorem Buffer.get_range_isSome_iff {b : Buffer} {offset length : Nat} :
    (b.get_range offset length).isSome ↔
      (b.start ≤ offset ∧ offset + length ≤ b.stop) := by
  unfold Buffer.get_range Buffer.contains_range
  by_cases h1 : b.start ≤ offset <;> by_cases h2 : offset + length ≤ b.stop <;>
    simp [h1, h2]

theorem Buffer.get_range_eq_some {b : Buffer} {offset length : Nat} {s : List Nat}
    (h : b.get_range offset length = some s) :
    b.start ≤ offset ∧ offset + length ≤ b.stop ∧
      s = (b.data.drop (offset - b.start)).take length := by
  unfold Buffer.get_range Buffer.contains_range at h
  by_cases h1 : b.start ≤ offset <;> by_cases h2 : offset + length ≤ b.stop <;>
    simp [h1, h2] at h
  exact ⟨h1, h2, h.symm⟩

theorem Buffer.get_range_length {b : Buffer} (hb : b.WF) {offset length : Nat}
    {s : List Nat} (h : b.get_range offset length = some s) :
    s.length = length := by
  obtain ⟨h1, h2, rfl⟩ := Buffer.get_range_eq_some h
  obtain ⟨hb1, hb2⟩ := hb
  rw [List.length_take, List.length_drop, hb2]
  omega

theorem foldl_max_lt {l : List Buffer} {c : Nat} :
    ∀ {init : Nat}, init < c → (∀ y ∈ l, y.stop < c) →
    l.foldl (fun a x => max a x.stop) init < c := by
  induction l with
  | nil => intro init h _; exact h
  | cons x rest ih =>
      intro init h hall
      rw [List.foldl_cons]
      exact ih (by have := hall x (List.mem_cons_self _ _); omega)
        (fun y hy => hall y (List.mem_cons_of_mem _ hy))

theorem lt_foldl_min {l : List Buffer} {c : Nat} :
    ∀ {init : Nat}, c < init → (∀ y ∈ l, c < y.start) →
    c < l.foldl (fun a x => min a x.start) init := by
  induction l with
  | nil => intro init h _; exact h
  | cons x rest ih =>
      intro init h hall
      rw [List.foldl_cons]
      exact ih (by have := hall x (List.mem_cons_self _ _); omega)
        (fun y hy => hall y (List.mem_cons_of_mem _ hy))

/-- In `read_inner`, the relative seek by `cursor_pos - stream_position`
always lands the source exactly at `cursor_pos`. -/
theorem seek_relative_reconcile (src : Src) (c : Nat) :
    src.seek_relative ((c : Int) - (src.pos : Int)) = some { src with pos := c } := by
  unfold Src.seek_relative
  have ht : ((src.pos : Int) + ((c : Int) - (src.pos : Int))).toNat = c := by omega
  rw [if_neg (by omega), ht]

/-! ## Equation lemmas for the fueled `read` -/

theorem read_fuel_zero (s : SaturatingReader) (len : Nat) :
    SaturatingReader.read 0 s len = none := rfl

theorem read_hit {fuel len : Nat} {s : SaturatingReader} {bytes : List Nat}
    (hhit : SaturatingReader.cacheLookup s.buffers s.cursor_pos len = some bytes) :
    SaturatingReader.read (fuel + 1) s len =
      some (bytes, len, { s with cursor_pos := s.cursor_pos + len }) := by
  unfold SaturatingReader.read
  rw [hhit]

theorem read_miss {fuel len : Nat} {s : SaturatingReader}
    (hmiss : SaturatingReader.cacheLookup s.buffers s.cursor_pos len = none) :
    SaturatingReader.read (fuel + 1) s len =
      match SaturatingReader.read_inner s len with
      | none => none
      | some res => SaturatingReader.read fuel res.2 len := by
  conv_lhs => unfold SaturatingReader.read
  rw [hmiss]

/-! ## Claim theorems -/

/-- **C5**: for ranges `[a,b)` and `[c,d)`, `overlaps` returns
`a ≤ d && c ≤ b`; it is symmetric and (on constructible buffers, whose
`start ≤ stop`) reflexive; and two spans that merely touch end-to-end,
such as `[0,10)` and `[10,20)`, count as overlapping. -/
theorem C5_overlaps_spec :
    (∀ A B : Buffer,
      A.overlaps B = (decide (A.start ≤ B.stop) && decide (B.start ≤ A.stop)))
    ∧ (∀ A B : Buffer, A.overlaps B = B.overlaps A)
    ∧ (∀ A : Buffer, A.start ≤ A.stop → A.overlaps A = true)
    ∧ (Buffer.from_slice 0 (List.replicate 10 0)).overlaps
        (Buffer.from_slice 10 (List.replicate 10 0)) = true := by
  refine ⟨fun A B => rfl, fun A B => ?_, fun A hA => ?_, by decide⟩
  · unfold Buffer.overlaps
    exact Bool.and_comm _ _
  · rw [Buffer.overlaps_iff]
    omega

/-- Witness for C5 at a concrete input: `[3,4)` overlaps itself. -/
theorem C5_overlaps_spec_witness :
    (Buffer.from_slice 3 [7]).overlaps (Buffer.from_slice 3 [7]) = true :=
  C5_overlaps_spec.2.2.1 (Buffer.from_slice 3 [7]) (by decide)

/-- **C6**: `get_range(offset, length)` is `some` exactly when
`[offset, offset+length)` lies inside `[start, stop)`
(`start ≤ offset ∧ offset + length ≤ stop`), and then the returned slice
is the `length`-many cached bytes starting at absolute offset `offset`;
otherwise it is `none` — never a partial result. -/
theorem C6_get_range_spec (b : Buffer) (hb : b.WF) (offset length : Nat) :
    ((b.get_range offset length).isSome ↔
      (b.start ≤ offset ∧ offset + length ≤ b.stop))
    ∧ (∀ s, b.get_range offset length = some s →
        s.length = length ∧
        ∀ i, i < length → s[i]? = b.data[(offset - b.start) + i]?) := by
  refine ⟨Buffer.get_range_isSome_iff, fun s hs => ?_⟩
  refine ⟨Buffer.get_range_length hb hs, fun i hi => ?_⟩
  obtain ⟨h1, h2, rfl⟩ := Buffer.get_range_eq_some hs
  rw [List.getElem?_take, if_pos hi, List.getElem?_drop]

/-- Witness for C6 at a concrete input: the buffer `[10,14)` holding
`[20,21,22,23]`, queried at `(11, 2)`. -/
theorem C6_get_range_spec_witness :
    (((Buffer.from_slice 10 [20, 21, 22, 23]).get_range 11 2).isSome ↔
      (10 ≤ 11 ∧ 11 + 2 ≤ 14))
    ∧ ((Buffer.from_slice 10 [20, 21, 22, 23]).get_range 11 2 = some [21, 22] →
        ([21, 22] : List Nat).length = 2) := by
  have h := C6_get_range_spec (Buffer.from_slice 10 [20, 21, 22, 23]) (by decide) 11 2
  exact ⟨h.1, fun hs => (h.2 [21, 22] hs).1⟩

/-- **C3 counterexample**: the two zero-length buffers at offset `5` are
overlapping according to `overlaps`, yet `merge` does not produce a buffer
spanning their union — it trips the `Buffer::new` assertion
(`start < end`) and panics. -/
theorem C3_merge_counterexample :
    (Buffer.from_slice 5 []).overlaps (Buffer.from_slice 5 []) = true ∧
    (Buffer.from_slice 5 []).merge (Buffer.from_slice 5 []) = none := by
  decide

/-- **C3 (amended)**: for overlapping buffers `A`, `B` that are not both
zero-length at the same point (`min start < max end`), `A.merge B`
produces a buffer spanning `[min(A.start,B.start), max(A.end,B.end))`;
where both operands supply data, `B`'s bytes win, elsewhere inside `A`'s
range `A`'s bytes persist; `merge` of non-overlapping buffers fails
fatally (and so does the excluded degenerate overlapping case). -/
theorem C3_merge_spec (A B : Buffer) (hA : A.WF) (hB : B.WF) :
    (A.overlaps B = false → A.merge B = none)
    ∧ (A.overlaps B = true → min A.start B.start < max A.stop B.stop →
        ∃ m, A.merge B = some m ∧
          m.start = min A.start B.start ∧ m.stop = max A.stop B.stop ∧
          (∀ p, B.start ≤ p → p < B.stop → m.byteAt p = B.byteAt p) ∧
          (∀ p, A.start ≤ p → p < A.stop → ¬(B.start ≤ p ∧ p < B.stop) →
            m.byteAt p = A.byteAt p)) := by
  constructor
  · intro hov
    rw [Buffer.merge_char, if_neg (by simp [hov])]
  · intro hov hlt
    obtain ⟨m, hm⟩ : ∃ m, A.merge B = some m := by
      rw [Buffer.merge_char, if_pos ⟨hov, hlt⟩]
      exact ⟨_, rfl⟩
    obtain ⟨hr1, hr2⟩ := Buffer.merge_range hm
    exact ⟨m, hm, hr1, hr2,
      fun p h1 h2 => Buffer.merge_byteAt_second hA hB hm p h1 h2,
      fun p h1 h2 h3 => Buffer.merge_byteAt_first hA hB hm p h1 h2 h3⟩

/-- Witness for C3 (amended) at the spec §8 example: `A = [0,10)` filled
with `1`, `B = [5,15)` filled with `2`. -/
theorem C3_merge_spec_witness :
    ∃ m, (Buffer.from_slice 0 (List.replicate 10 1)).merge
        (Buffer.from_slice 5 (List.replicate 10 2)) = some m ∧
      m.start = min 0 5 ∧ m.stop = max 10 15 ∧
      (∀ p, 5 ≤ p → p < 15 →
        m.byteAt p = (Buffer.from_slice 5 (List.replicate 10 2)).byteAt p) ∧
      (∀ p, 0 ≤ p → p < 10 → ¬(5 ≤ p ∧ p < 15) →
        m.byteAt p = (Buffer.from_slice 0 (List.replicate 10 1)).byteAt p) :=
  (C3_merge_spec (Buffer.from_slice 0 (List.replicate 10 1))
    (Buffer.from_slice 5 (List.replicate 10 2)) (by decide) (by decide)).2
    (by decide) (by decide)

/-- **C8**: an absolute-from-start seek to `p` sets `cursor_pos := p` and
touches neither the source nor anything else; a relative-from-current seek
by `d` sets `cursor_pos := cursor_pos + d` when the sum is representable
as a `u64`, touching nothing else, and otherwise fails with the overflow
error, leaving the whole state (in particular `cursor_pos`) unchanged. -/
theorem C8_seek_spec (s : SaturatingReader) (p : Nat) (d : Int) :
    (SaturatingReader.seek s (SeekFrom.start p) =
      (some p, { s with cursor_pos := p }))
    ∧ (0 ≤ (s.cursor_pos : Int) + d → (s.cursor_pos : Int) + d < 2 ^ 64 →
        SaturatingReader.seek s (SeekFrom.current d) =
          (some ((s.cursor_pos : Int) + d).toNat,
           { s with cursor_pos := ((s.cursor_pos : Int) + d).toNat }))
    ∧ (¬(0 ≤ (s.cursor_pos : Int) + d ∧ (s.cursor_pos : Int) + d < 2 ^ 64) →
        SaturatingReader.seek s (SeekFrom.current d) = (none, s)) := by
  have hcur : SaturatingReader.seek s (SeekFrom.current d) =
      match checked_add_signed s.cursor_pos d with
      | some c => (some c, { s with cursor_pos := c })
      | none => (none, s) := rfl
  refine ⟨rfl, fun h1 h2 => ?_, fun h => ?_⟩
  · rw [hcur]
    unfold checked_add_signed
    rw [if_pos ⟨h1, h2⟩]
  · rw [hcur]
    unfold checked_add_signed
    rw [if_neg h]

/-- Witness for C8 at concrete inputs: a fresh reader over an empty
source, seeking to `5` from the start, by `+3` from the current position,
and by `-1` from the current position (which underflows). -/
theorem C8_seek_spec_witness :
    (SaturatingReader.seek (SaturatingReader.with_capacity 4 ⟨[], 0⟩)
        (SeekFrom.start 5) =
      (some 5, { SaturatingReader.with_capacity 4 ⟨[], 0⟩ with cursor_pos := 5 }))
    ∧ (SaturatingReader.seek (SaturatingReader.with_capacity 4 ⟨[], 0⟩)
        (SeekFrom.current 3) =
      (some 3, { SaturatingReader.with_capacity 4 ⟨[], 0⟩ with cursor_pos := 3 }))
    ∧ (SaturatingReader.seek (SaturatingReader.with_capacity 4 ⟨[], 0⟩)
        (SeekFrom.current (-1)) =
      (none, SaturatingReader.with_capacity 4 ⟨[], 0⟩)) := by
  have h := C8_seek_spec (SaturatingReader.with_capacity 4 ⟨[], 0⟩) 5 3
  have h' := C8_seek_spec (SaturatingReader.with_capacity 4 ⟨[], 0⟩) 5 (-1)
  exact ⟨h.1, h.2.1 (by decide) (by decide), h'.2.2 (by decide)⟩

/-- **C7**: when some single cached entry fully covers
`[cursor_pos, cursor_pos + len)`, `read` returns the cached bytes, exactly
`len` of them (no short read), advances `cursor_pos` by `len`, and leaves
everything else — the underlying source (no read, no seek) and the cache
collection — unchanged, as the resulting state shows. -/
theorem C7_read_cache_hit (fuel len : Nat) (s : SaturatingReader)
    (hwf : ∀ x ∈ s.buffers, x.WF)
    (hcov : ∃ b ∈ s.buffers, (b.get_range s.cursor_pos len).isSome) :
    ∃ bytes, SaturatingReader.cacheLookup s.buffers s.cursor_pos len = some bytes ∧
      bytes.length = len ∧
      SaturatingReader.read (fuel + 1) s len =
        some (bytes, len, { s with cursor_pos := s.cursor_pos + len }) := by
  have hsome : (SaturatingReader.cacheLookup s.buffers s.cursor_pos len).isSome :=
    findSome?_isSome_of_exists hcov
  obtain ⟨bytes, hbytes⟩ := Option.isSome_iff_exists.mp hsome
  obtain ⟨b, hbmem, hbg⟩ := findSome?_eq_some_exists hbytes
  exact ⟨bytes, hbytes, Buffer.get_range_length (hwf b hbmem) hbg, read_hit hbytes⟩

/-- Witness for C7 at a concrete input: a reader whose cache holds
`[0,4)` with bytes `[9,8,7,6]`, cursor at `1`, reading `2` bytes. -/
theorem C7_read_cache_hit_witness :
    ∃ bytes,
      SaturatingReader.cacheLookup
        (SaturatingReader.mk { data := [], pos := 0 } [⟨0, 4, [9, 8, 7, 6]⟩] 1 4).buffers
        (SaturatingReader.mk { data := [], pos := 0 } [⟨0, 4, [9, 8, 7, 6]⟩] 1 4).cursor_pos
        2 = some bytes ∧
      bytes.length = 2 ∧
      SaturatingReader.read 1
          (SaturatingReader.mk { data := [], pos := 0 } [⟨0, 4, [9, 8, 7, 6]⟩] 1 4) 2 =
        some (bytes, 2,
          { SaturatingReader.mk { data := [], pos := 0 } [⟨0, 4, [9, 8, 7, 6]⟩] 1 4 with
              cursor_pos := 1 + 2 }) :=
  C7_read_cache_hit 0 2 (SaturatingReader.mk { data := [], pos := 0 } [⟨0, 4, [9, 8, 7, 6]⟩] 1 4)
    (by decide) ⟨⟨0, 4, [9, 8, 7, 6]⟩, by decide, by decide⟩

/-- **C9**: `read_inner(at_least)` reconciles the source's physical
position to `cursor_pos` (via the relative seek by
`cursor_pos - stream_position`, after which the source sits at
`cursor_pos` plus whatever it then reads), reads up to
`max at_least bufread_size` bytes, inserts exactly the prefix actually
read into the cache at offset `cursor_pos` via `add_buffer`, returns the
count of bytes actually read, and does not modify `cursor_pos`. -/
theorem C9_read_inner_spec (s : SaturatingReader) (at_least : Nat) (bufs : List Buffer)
    (hadd : SaturatingReader.add_buffer s.buffers s.cursor_pos
        ((s.inner.data.drop s.cursor_pos).take (max at_least s.bufread_size)) = some bufs) :
    SaturatingReader.read_inner s at_least =
      some (((s.inner.data.drop s.cursor_pos).take (max at_least s.bufread_size)).length,
        { s with
            inner := { data := s.inner.data,
                       pos := s.cursor_pos +
                         ((s.inner.data.drop s.cursor_pos).take
                           (max at_least s.bufread_size)).length },
            buffers := bufs }) ∧
    ((s.inner.data.drop s.cursor_pos).take (max at_least s.bufread_size)).length
      ≤ max at_least s.bufread_size := by
  refine ⟨?_, List.length_take_le _ _⟩
  simp only [SaturatingReader.read_inner, Src.stream_position, Src.read]
  rw [seek_relative_reconcile]
  dsimp only
  rw [hadd]

/-- Witness for C9 at a concrete input: a six-byte source, cursor at `2`,
chunk size `3`, `at_least = 0`. -/
theorem C9_read_inner_spec_witness :
    SaturatingReader.read_inner (SaturatingReader.mk ⟨[1, 2, 3, 4, 5, 6], 0⟩ [] 2 3) 0 =
      some (3, SaturatingReader.mk ⟨[1, 2, 3, 4, 5, 6], 5⟩ [⟨2, 5, [3, 4, 5]⟩] 2 3) ∧
    3 ≤ max 0 3 := by
  have h := C9_read_inner_spec (SaturatingReader.mk ⟨[1, 2, 3, 4, 5, 6], 0⟩ [] 2 3) 0
    [⟨2, 5, [3, 4, 5]⟩] (by decide)
  exact ⟨h.1, h.2⟩

/-- **C2**: when `add_buffer` inserts freshly fetched bytes at `offset`
into a cache satisfying the invariant, then at every position `p` covered
both by the new data and by some previously cached entry `b`, the merged
entry that results holds `b`'s byte, not the freshly fetched one — the new
buffer is the fold accumulator and `merge` gives its second operand
precedence, so previously cached data wins. -/
theorem C2_cached_wins (bufs : List Buffer) (offset : Nat) (bytes : List Nat)
    (b : Buffer) (p : Nat)
    (hinv : CacheInv bufs) (hwf : ∀ x ∈ bufs, x.WF)
    (hmem : b ∈ bufs) (hbp1 : b.start ≤ p) (hbp2 : p < b.stop)
    (hp1 : offset ≤ p) (hp2 : p < offset + bytes.length) :
    ∃ merged, SaturatingReader.add_buffer bufs offset bytes =
        some (missesOf bufs (Buffer.from_slice offset bytes) ++ [merged]) ∧
      merged.byteAt p = b.byteAt p := by
  set nb := Buffer.from_slice offset bytes with hnb
  have hnbs : nb.start = offset := rfl
  have hnbe : nb.stop = offset + bytes.length := rfl
  have hnbwf : nb.WF := by
    constructor
    · rw [hnbs, hnbe]; omega
    · rw [hnb]
      show bytes.length = (offset + bytes.length) - offset
      omega
  have hne : nb.start < nb.stop := by rw [hnbs, hnbe]; omega
  have hbov : b.overlaps nb = true := by
    rw [Buffer.overlaps_iff, hnbs, hnbe]; omega
  have hbhits : b ∈ hitsOf bufs nb := List.mem_filter.mpr ⟨hmem, hbov⟩
  have hallov : ∀ x ∈ hitsOf bufs nb, x.overlaps nb = true :=
    fun x hx => (List.mem_filter.mp hx).2
  have hhitswf : ∀ x ∈ hitsOf bufs nb, x.WF :=
    fun x hx => hwf x (List.mem_filter.mp hx).1
  obtain ⟨m, hfold, hm1, hm2⟩ := foldMerge_success hne (hitsOf bufs nb) nb hallov
    (le_refl _) (le_refl _)
  have hfold0 := hfold
  obtain ⟨l1, l2, hsplit⟩ := List.append_of_mem hbhits
  rw [hsplit, List.foldlM_append] at hfold
  obtain ⟨a1, hfold1, hfold2⟩ := Option.bind_eq_some.mp hfold
  rw [List.foldlM_cons] at hfold2
  obtain ⟨a2, hma2, hfold3⟩ := Option.bind_eq_some.mp hfold2
  obtain ⟨a1x, ha1x, ha1c1, ha1c2⟩ := foldMerge_success hne l1 nb
    (fun x hx => hallov x (by rw [hsplit]; exact List.mem_append_left _ hx))
    (le_refl _) (le_refl _)
  rw [hfold1] at ha1x
  cases ha1x
  have hwa1 : a1.WF := foldMerge_WF l1 nb a1
    (fun x hx => hhitswf x (by rw [hsplit]; exact List.mem_append_left _ hx)) hnbwf hfold1
  have hwb : b.WF := hwf b hmem
  have hbyte2 : a2.byteAt p = b.byteAt p :=
    Buffer.merge_byteAt_second hwa1 hwb hma2 p hbp1 hbp2
  obtain ⟨hr1, hr2⟩ := Buffer.merge_range hma2
  have hwa2 : a2.WF := Buffer.merge_WF hwa1 hwb hma2
  have hpair : (hitsOf bufs nb).Pairwise Buffer.Sep :=
    List.Pairwise.sublist (List.filter_sublist bufs) hinv
  rw [hsplit] at hpair
  have hl2nc : ∀ y ∈ l2, ¬(y.start ≤ p ∧ p < y.stop) := by
    intro y hy
    rw [List.pairwise_append] at hpair
    have hsep := (List.pairwise_cons.mp hpair.2.1).1 y hy
    unfold Buffer.Sep at hsep
    omega
  have hl2wf : ∀ y ∈ l2, y.WF := fun y hy => hhitswf y
    (by rw [hsplit]; exact List.mem_append_right _ (List.mem_cons_of_mem _ hy))
  have hcov1 : a2.start ≤ p := by omega
  have hcov2 : p < a2.stop := by omega
  have hfin : m.byteAt p = a2.byteAt p :=
    foldMerge_byteAt l2 a2 m p hl2wf hwa2 hfold3 hcov1 hcov2 hl2nc
  refine ⟨m, ?_, by rw [hfin, hbyte2]⟩
  rw [add_buffer_char, hfold0]

/-- Witness for C2 at a concrete input: the cache holds `[0,4)` filled
with `1`s; `[2,2,2,2]` is freshly inserted at offset `2`; at the overlap
position `3` the merged entry keeps the cached byte `1`. -/
theorem C2_cached_wins_witness :
    ∃ merged, SaturatingReader.add_buffer [⟨0, 4, [1, 1, 1, 1]⟩] 2 [2, 2, 2, 2] =
        some (missesOf [⟨0, 4, [1, 1, 1, 1]⟩] (Buffer.from_slice 2 [2, 2, 2, 2]) ++ [merged]) ∧
      merged.byteAt 3 = (⟨0, 4, [1, 1, 1, 1]⟩ : Buffer).byteAt 3 :=
  C2_cached_wins [⟨0, 4, [1, 1, 1, 1]⟩] 2 [2, 2, 2, 2] ⟨0, 4, [1, 1, 1, 1]⟩ 3
    (by decide) (by decide) (by decide) (by decide) (by decide) (by decide) (by decide)

/-- The separation relation is symmetric. -/
theorem Buffer.sep_symmetric : Symmetric Buffer.Sep :=
  fun _ _ h => h.elim Or.inr Or.inl

/-- **C4**: every completed `add_buffer` insertion preserves the Range
Cache invariant — pairwise strict separation (`a.end < b.start` or
`b.end < a.start`) — and an insertion that overlaps or touches `N`
existing entries leaves exactly one entry spanning the union of the new
range and those `N` entries' ranges, plus every entry that did not
overlap.  (An insertion that panics inside `merge` — only possible in the
degenerate zero-length case, see C3 — produces no collection at all and
is therefore not covered by a preservation statement.) -/
theorem C4_invariant_preserved (bufs : List Buffer) (offset : Nat) (bytes : List Nat)
    (res : List Buffer)
    (hinv : CacheInv bufs) (hwf : ∀ x ∈ bufs, x.WF)
    (hres : SaturatingReader.add_buffer bufs offset bytes = some res) :
    CacheInv res ∧
    ∃ merged, res = missesOf bufs (Buffer.from_slice offset bytes) ++ [merged] ∧
      merged.start = (hitsOf bufs (Buffer.from_slice offset bytes)).foldl
          (fun a x => min a x.start) offset ∧
      merged.stop = (hitsOf bufs (Buffer.from_slice offset bytes)).foldl
          (fun a x => max a x.stop) (offset + bytes.length) := by
  set nb := Buffer.from_slice offset bytes with hnb
  rw [add_buffer_char] at hres
  cases hfold : (hitsOf bufs nb).foldlM (fun acc x => acc.merge x) nb with
  | none => rw [hfold] at hres; cases hres
  | some m =>
      rw [hfold] at hres
      have hres2 : missesOf bufs nb ++ [m] = res := Option.some.inj hres
      subst hres2
      obtain ⟨hm1, hm2⟩ := foldMerge_range (hitsOf bufs nb) nb m hfold
      constructor
      · show (missesOf bufs nb ++ [m]).Pairwise Buffer.Sep
        rw [List.pairwise_append]
        refine ⟨List.Pairwise.sublist (List.filter_sublist _) hinv, by simp, ?_⟩
        intro x hx y hy
        rw [List.mem_singleton] at hy
        subst hy
        obtain ⟨hxmem, hxov'⟩ := List.mem_filter.mp hx
        have hovx : x.overlaps nb = false := by
          cases h : x.overlaps nb
          · rfl
          · rw [h] at hxov'; cases hxov'
        have hP : ¬(x.start ≤ nb.stop ∧ nb.start ≤ x.stop) := by
          rw [← Buffer.overlaps_iff]
          simp [hovx]
        obtain ⟨hwx1, hwx2⟩ := hwf x hxmem
        have hcases : nb.stop < x.start ∨ x.stop < nb.start := by omega
        rcases hcases with hcase | hcase
        · refine Or.inr ?_
          rw [hm2]
          refine foldl_max_lt hcase ?_
          intro y hy
          obtain ⟨hymem, hyov⟩ := List.mem_filter.mp hy
          have hy2 := Buffer.overlaps_iff.mp hyov
          have hxy : x ≠ y := by
            intro h
            rw [h, hyov] at hovx
            cases hovx
          have hsep := List.Pairwise.forall Buffer.sep_symmetric hinv hxmem hymem hxy
          obtain ⟨hwy1, hwy2⟩ := hwf y hymem
          unfold Buffer.Sep at hsep
          omega
        · refine Or.inl ?_
          rw [hm1]
          refine lt_foldl_min hcase ?_
          intro y hy
          obtain ⟨hymem, hyov⟩ := List.mem_filter.mp hy
          have hy2 := Buffer.overlaps_iff.mp hyov
          have hxy : x ≠ y := by
            intro h
            rw [h, hyov] at hovx
            cases hovx
          have hsep := List.Pairwise.forall Buffer.sep_symmetric hinv hxmem hymem hxy
          obtain ⟨hwy1, hwy2⟩ := hwf y hymem
          unfold Buffer.Sep at hsep
          omega
      · exact ⟨m, rfl, hm1, hm2⟩

/-- Witness for C4 at a concrete input: inserting `[9]` at offset `2`
between the entries `[0,2)` and `[3,4)` (touching both) coalesces all
three into the single entry `[0,4)`. -/
theorem C4_invariant_preserved_witness :
    CacheInv [(⟨0, 4, [5, 5, 9, 6]⟩ : Buffer)] ∧
    ∃ merged, [(⟨0, 4, [5, 5, 9, 6]⟩ : Buffer)] =
        missesOf [⟨0, 2, [5, 5]⟩, ⟨3, 4, [6]⟩] (Buffer.from_slice 2 [9]) ++ [merged] ∧
      merged.start = (hitsOf [⟨0, 2, [5, 5]⟩, ⟨3, 4, [6]⟩] (Buffer.from_slice 2 [9])).foldl
          (fun a x => min a x.start) 2 ∧
      merged.stop = (hitsOf [⟨0, 2, [5, 5]⟩, ⟨3, 4, [6]⟩] (Buffer.from_slice 2 [9])).foldl
          (fun a x => max a x.stop) (2 + ([9] : List Nat).length) :=
  C4_invariant_preserved [⟨0, 2, [5, 5]⟩, ⟨3, 4, [6]⟩] 2 [9] [⟨0, 4, [5, 5, 9, 6]⟩]
    (by decide) (by decide) (by decide)

/-- **C10**: a zero-length read terminates with `Ok(0)` from every state:
if the zero-length lookup at `cursor_pos` already succeeds on some cached
entry, `read` returns at once with the state unchanged (`cursor_pos`
advances by `0`); otherwise it performs exactly one fetch — reading up to
`bufread_size` bytes from the source although the caller asked for none —
after which the zero-length lookup succeeds (a zero-byte fetch inserts the
zero-length entry `[cursor_pos, cursor_pos)` whose `get_range(cursor, 0)`
is `some`), so fuel `2` suffices. -/
theorem C10_zero_len_read (s : SaturatingReader) :
    (∀ bytes, SaturatingReader.cacheLookup s.buffers s.cursor_pos 0 = some bytes →
      SaturatingReader.read 2 s 0 = some (bytes, 0, s))
    ∧ (SaturatingReader.cacheLookup s.buffers s.cursor_pos 0 = none →
      ∃ n s1, SaturatingReader.read_inner s 0 = some (n, s1) ∧
        n ≤ s.bufread_size ∧ s1.cursor_pos = s.cursor_pos ∧
        SaturatingReader.cacheLookup s1.buffers s1.cursor_pos 0 = some [] ∧
        SaturatingReader.read 2 s 0 = some ([], 0, s1)) := by
  constructor
  · intro bytes hb
    exact read_hit hb
  · intro hmiss
    have hall : ∀ x ∈ s.buffers, x.get_range s.cursor_pos 0 = none :=
      List.findSome?_eq_none_iff.mp hmiss
    have hnc : ∀ x ∈ s.buffers, ¬(x.start ≤ s.cursor_pos ∧ s.cursor_pos + 0 ≤ x.stop) := by
      intro x hx hcon
      have h1 : (x.get_range s.cursor_pos 0).isSome :=
        Buffer.get_range_isSome_iff.mpr hcon
      rw [hall x hx] at h1
      cases h1
    set B : List Nat := (s.inner.data.drop s.cursor_pos).take (max 0 s.bufread_size)
      with hB
    set nb := Buffer.from_slice s.cursor_pos B with hnb
    have key : ∃ m, (hitsOf s.buffers nb).foldlM (fun a x => a.merge x) nb = some m ∧
        m.start ≤ s.cursor_pos ∧ s.cursor_pos ≤ m.stop := by
      cases hBc : B with
      | nil =>
          have hhits : hitsOf s.buffers nb = [] := by
            rw [hitsOf, List.filter_eq_nil_iff]
            intro x hx hov
            have h2 := Buffer.overlaps_iff.mp hov
            rw [hnb, hBc] at h2
            exact hnc x hx ⟨by have := h2.1; simpa using this, by have := h2.2; simpa using this⟩
          refine ⟨nb, by rw [hhits]; rfl, ?_, ?_⟩
          · exact Nat.le_refl _
          · show s.cursor_pos ≤ s.cursor_pos + B.length
            omega
      | cons hd tl =>
          have hne : nb.start < nb.stop := by
            show s.cursor_pos < s.cursor_pos + B.length
            rw [hBc]
            simp
          obtain ⟨m, hf, h1, h2⟩ := foldMerge_success hne (hitsOf s.buffers nb) nb
            (fun x hx => (List.mem_filter.mp hx).2) (Nat.le_refl _) (Nat.le_refl _)
          refine ⟨m, hf, h1, ?_⟩
          have h3 : s.cursor_pos ≤ nb.stop := Nat.le_add_right s.cursor_pos B.length
          exact le_trans h3 h2
    obtain ⟨m, hfold, hc1, hc2⟩ := key
    have hadd : SaturatingReader.add_buffer s.buffers s.cursor_pos B =
        some (missesOf s.buffers nb ++ [m]) := by
      rw [add_buffer_char, ← hnb, hfold]
    have hri := (C9_read_inner_spec s 0 (missesOf s.buffers nb ++ [m]) hadd).1
    have hlen := (C9_read_inner_spec s 0 (missesOf s.buffers nb ++ [m]) hadd).2
    refine ⟨B.length,
      { s with
          inner := { data := s.inner.data, pos := s.cursor_pos + B.length },
          buffers := missesOf s.buffers nb ++ [m] }, hri, ?_, rfl, ?_, ?_⟩
    · rw [hB]
      omega
    · show (missesOf s.buffers nb ++ [m]).findSome?
        (fun b => b.get_range s.cursor_pos 0) = some []
      rw [List.findSome?_append]
      have hm1 : (missesOf s.buffers nb).findSome?
          (fun b => b.get_range s.cursor_pos 0) = none := by
        rw [List.findSome?_eq_none_iff]
        intro x hx
        exact hall x (List.mem_filter.mp hx).1
      have hm2 : m.get_range s.cursor_pos 0 = some [] := by
        unfold Buffer.get_range Buffer.contains_range
        rw [if_pos (by simp; omega)]
        rw [List.take_zero]
      rw [hm1, List.findSome?_cons, hm2]
      rfl
    · rw [read_miss hmiss, hri]
      have hhit1 : SaturatingReader.cacheLookup
          (missesOf s.buffers nb ++ [m]) s.cursor_pos 0 = some [] := by
        show (missesOf s.buffers nb ++ [m]).findSome?
          (fun b => b.get_range s.cursor_pos 0) = some []
        rw [List.findSome?_append]
        have hm1 : (missesOf s.buffers nb).findSome?
            (fun b => b.get_range s.cursor_pos 0) = none := by
          rw [List.findSome?_eq_none_iff]
          intro x hx
          exact hall x (List.mem_filter.mp hx).1
        have hm2 : m.get_range s.cursor_pos 0 = some [] := by
          unfold Buffer.get_range Buffer.contains_range
          rw [if_pos (by simp; omega)]
          rw [List.take_zero]
        rw [hm1, List.findSome?_cons, hm2]
        rfl
      exact read_hit hhit1

/-- Witness for C10 at a concrete input: an empty-cache reader whose
cursor `7` sits beyond the three-byte source, so the fetch returns zero
bytes, inserts `[7,7)`, and the zero-length read still returns `Ok(0)`. -/
theorem C10_zero_len_read_witness :
    ∃ n s1,
      SaturatingReader.read_inner (SaturatingReader.mk ⟨[1, 2, 3], 3⟩ [] 7 4) 0 =
        some (n, s1) ∧
      n ≤ (SaturatingReader.mk ⟨[1, 2, 3], 3⟩ [] 7 4).bufread_size ∧
      s1.cursor_pos = (SaturatingReader.mk ⟨[1, 2, 3], 3⟩ [] 7 4).cursor_pos ∧
      SaturatingReader.cacheLookup s1.buffers s1.cursor_pos 0 = some [] ∧
      SaturatingReader.read 2 (SaturatingReader.mk ⟨[1, 2, 3], 3⟩ [] 7 4) 0 =
        some ([], 0, s1) :=
  (C10_zero_len_read (SaturatingReader.mk ⟨[1, 2, 3], 3⟩ [] 7 4)).2 (by decide)

/-- **C1 counterexample**: at the end-of-source state `loopState`, a
four-byte read misses the cache, every fetch succeeds but returns zero
bytes and leaves the state exactly as it was, and the recursive `read`
therefore never terminates: no amount of fuel makes it return.  (The
claim that a read at an exhausted source "still terminates rather than
retrying forever" is thereby false.) -/
theorem C1_read_nonterminating :
    SaturatingReader.cacheLookup loopState.buffers loopState.cursor_pos 4 = none ∧
    SaturatingReader.read_inner loopState 4 = some (0, loopState) ∧
    ∀ fuel, SaturatingReader.read fuel loopState 4 = none := by
  refine ⟨by decide, by decide, ?_⟩
  intro fuel
  induction fuel with
  | zero => rfl
  | succ n ih =>
      rw [read_miss (by decide)]
      rw [show SaturatingReader.read_inner loopState 4 = some (0, loopState) from by decide]
      exact ih

/-- **C1 (amended)**: `read` is recursive and is *not* guaranteed to
terminate; what does hold is that the retry after a miss is a single
extra attempt in the non-degenerate case: whenever the lookup misses and
one fetch makes the retried lookup hit, fuel `2` (one fetch, one retry)
already produces the result.  In the degenerate end-of-source case
(`C1_read_nonterminating`) the fetch never satisfies the lookup and
`read` retries forever. -/
theorem C1_read_single_retry (s s1 : SaturatingReader) (len n : Nat) (bytes : List Nat)
    (hmiss : SaturatingReader.cacheLookup s.buffers s.cursor_pos len = none)
    (hfetch : SaturatingReader.read_inner s len = some (n, s1))
    (hhit : SaturatingReader.cacheLookup s1.buffers s1.cursor_pos len = some bytes) :
    SaturatingReader.read 2 s len =
      some (bytes, len, { s1 with cursor_pos := s1.cursor_pos + len }) := by
  show SaturatingReader.read (1 + 1) s len = _
  rw [read_miss hmiss, hfetch]
  exact read_hit hhit

/-- Witness for C1 (amended) at a concrete input: a fresh reader over a
four-byte source; a two-byte read misses, one fetch caches `[0,4)`, and
the retry hits. -/
theorem C1_read_single_retry_witness :
    SaturatingReader.read 2 (SaturatingReader.with_capacity 4 ⟨[7, 8, 9, 5], 0⟩) 2 =
      some ([7, 8], 2,
        { SaturatingReader.mk ⟨[7, 8, 9, 5], 4⟩ [⟨0, 4, [7, 8, 9, 5]⟩] 0 4 with
            cursor_pos := 0 + 2 }) :=
  C1_read_single_retry (SaturatingReader.with_capacity 4 ⟨[7, 8, 9, 5], 0⟩)
    (SaturatingReader.mk ⟨[7, 8, 9, 5], 4⟩ [⟨0, 4, [7, 8, 9, 5]⟩] 0 4) 2 4 [7, 8]
    (by decide) (by decide) (by decide)
